import Mathlib

/-!
Verification of the segmented-path routing core (`src/handler/routing.rs`).

Shallow embedding conventions:
* Byte slices (`&[u8]`, `MaybeUtf8Owned`) are modelled as `List Nat`
  (each entry one byte); the separator byte `b'/'` is `47`.
* `RouteState` is a structure with explicit state passing: every mutating
  Rust method becomes a function `RouteState → RouteState`.
* The `HashMap` returned by `RouteState::variables` is modelled by the
  list of `(name, value)` pairs in the order the iterator emits them plus
  `lookupLast`, which realises insertion semantics (a later insert with
  the same key overwrites an earlier one).
-/

/-- Byte value of the separator `b'/'`. -/
def slashByte : Nat := 47

/-- Embedding of `is_slash` (`routing.rs` line 36). -/
def is_slash (c : Nat) : Bool := c == slashByte

/-- Embedding of `slice::split` as used with `IS_SLASH`: splits a byte list on
every slash, keeping empty runs (Rust `split` yields the possibly empty
subslices between matches). -/
def splitSlash : List Nat → List (List Nat)
  | [] => [[]]
  | c :: rest =>
    match splitSlash rest with
    | [] => [[]]
    | s :: ss => if is_slash c then [] :: s :: ss else (c :: s) :: ss

/-- Embedding of `<[u8] as Route>::segments` (`routing.rs` lines 50-71):
drop one leading slash if present, drop one trailing slash if present,
return no segments if the remainder is empty, otherwise split on `/`. -/
def byteSegments (p : List Nat) : List (List Nat) :=
  let s := if p.head? = some slashByte then p.drop 1 else p
  let s2 := if s.getLast? = some slashByte then s.take (s.length - 1) else s
  if s2.length = 0 then [] else splitSlash s2

/-- Helper to write byte-string literals: the bytes of an ASCII string. -/
def strB (s : String) : List Nat := s.toList.map Char.toNat

/-- A path-like value: either a single byte path (covering `str` and `[u8]`,
since `<str as Route>::segments` just delegates to the byte impl), or an
ordered container of path-like values (the generic `impl Route for I`,
`routing.rs` lines 74-88). -/
inductive PathRep where
  | bytes : List Nat → PathRep
  | container : List PathRep → PathRep

mutual

/-- Embedding of `Route::segments`: byte paths are normalised and split;
containers flatten the segment sequences of their elements in order
(`flat_map`, `routing.rs` line 86). -/
def PathRep.segments : PathRep → List (List Nat)
  | .bytes b => byteSegments b
  | .container ps => segmentsList ps

/-- Segment sequence of a list of path-like values, concatenated in order. -/
def segmentsList : List PathRep → List (List Nat)
  | [] => []
  | p :: ps => p.segments ++ segmentsList ps

end

/-- Embedding of `RouteState` (`routing.rs` lines 117-124). The Rust field
`variables: Vec<Option<usize>>` is named `vars` here, since `variables` is
reserved in Lean at that position; the method `RouteState::variables` keeps
its name below. -/
structure RouteState where
  route : List (List Nat)
  vars : List (Option Nat)
  index : Nat
  var_index : Nat
deriving Repr, DecidableEq

/-- Embedding of `From<&R> for RouteState` (`routing.rs` lines 190-200):
fresh state over a segment list, all slots unassigned. -/
def RouteState.fromSegs (route : List (List Nat)) : RouteState :=
  { route := route
    vars := List.replicate route.length none
    index := 0
    var_index := 0 }

/-- Fresh `RouteState` built from a path-like value. -/
def RouteState.fromPath (p : PathRep) : RouteState :=
  RouteState.fromSegs p.segments

/-- Embedding of `RouteState::get`: current segment, no position change. -/
def RouteState.get (s : RouteState) : Option (List Nat) :=
  s.route[s.index]?

/-- Embedding of `RouteState::skip`: unassign the current slot (no-op when
`index` is out of range, like `get_mut(..).map(..)`), advance `index`. -/
def RouteState.skip (s : RouteState) : RouteState :=
  { s with vars := s.vars.set s.index none, index := s.index + 1 }

/-- Embedding of `RouteState::keep`: assign the current slot the current
`var_index`, advance `index`, increment `var_index`. -/
def RouteState.keep (s : RouteState) : RouteState :=
  { s with
    vars := s.vars.set s.index (some s.var_index)
    index := s.index + 1
    var_index := s.var_index + 1 }

/-- Embedding of `RouteState::fuse`: assign the current slot the current
`var_index`, advance `index`, leave `var_index` unchanged. -/
def RouteState.fuse (s : RouteState) : RouteState :=
  { s with
    vars := s.vars.set s.index (some s.var_index)
    index := s.index + 1 }

/-- Embedding of `RouteState::snapshot`. -/
def RouteState.snapshot (s : RouteState) : Nat × Nat :=
  (s.index, s.var_index)

/-- Embedding of `RouteState::go_to`. -/
def RouteState.go_to (s : RouteState) (snap : Nat × Nat) : RouteState :=
  { s with index := snap.1, var_index := snap.2 }

/-- Embedding of `RouteState::is_empty`. -/
def RouteState.is_empty (s : RouteState) : Bool :=
  s.index == s.route.length

/-- The `(slot id, segment)` pairs of the assigned segments, in path order:
embedding of the `zip`/`filter_map` in `RouteState::variables`
(`routing.rs` lines 156-162). -/
def capturedPairs (s : RouteState) : List (Nat × List Nat) :=
  (s.route.zip s.vars).filterMap (fun p => p.2.map (fun i => (i, p.1)))

/-- Embedding of driving `VariableIter` (`routing.rs` lines 221-250) to
exhaustion: `cur` is the `self.current` pending binding
`(slot id, name, accumulated value)`; entries whose slot id has no name or
an empty name are skipped; an entry continuing the pending slot id appends
`/` and the segment bytes; otherwise the pending binding is emitted and a
new one started; the final pending binding is emitted at the end. -/
def variableIterLoop (names : List (List Nat)) :
    List (Nat × List Nat) → Option (Nat × List Nat × List Nat) →
    List (List Nat × List Nat)
  | [], none => []
  | [], some (_, n, acc) => [(n, acc)]
  | (i, seg) :: rest, cur =>
    match names[i]? with
    | none => variableIterLoop names rest cur
    | some n =>
      if n = [] then variableIterLoop names rest cur
      else
        match cur with
        | none => variableIterLoop names rest (some (i, n, seg))
        | some (j, m, acc) =>
          if j = i then variableIterLoop names rest (some (j, m, acc ++ slashByte :: seg))
          else (m, acc) :: variableIterLoop names rest (some (i, n, seg))

/-- Embedding of `RouteState::variables` (`routing.rs` lines 155-170): the
name/value pairs in the order `VariableIter` yields them (the order they
are inserted into the `HashMap`). -/
def RouteState.variables (s : RouteState) (names : List (List Nat)) :
    List (List Nat × List Nat) :=
  variableIterLoop names (capturedPairs s) none

/-- Lookup in the name-keyed output mapping built by inserting the emitted
pairs in order: the value of the LAST pair with the given key, as a later
`HashMap::insert` overwrites an earlier one. -/
def lookupLast (l : List (List Nat × List Nat)) (k : List Nat) :
    Option (List Nat) :=
  ((l.filter (fun p => p.1 == k)).getLast?).map Prod.snd

/-- The spec's normalization rule (§4.1), stated with library primitives
independently of the code's recursion: strip exactly one leading separator
if present, then exactly one trailing separator if present; if the remainder
is empty the sequence is empty; otherwise split the remainder on the
separator. -/
def specSegments (p : List Nat) : List (List Nat) :=
  let s := if p.head? = some slashByte then p.tail else p
  let s2 := if s.getLast? = some slashByte then s.dropLast else s
  if s2 = [] then [] else s2.splitOn slashByte

/-- The named, assigned entries of a `(slot id, segment)` list: drop entries
whose slot id is out of range of the name table or whose name is empty, and
attach the name (the filtering of `VariableIter::next`, `routing.rs` lines
224-229). -/
def filterNamed (names : List (List Nat)) :
    List (Nat × List Nat) → List (Nat × List Nat × List Nat)
  | [] => []
  | (i, seg) :: rest =>
    match names[i]? with
    | none => filterNamed names rest
    | some n =>
      if n = [] then filterNamed names rest
      else (i, n, seg) :: filterNamed names rest

/-- The merge loop of `VariableIter` on pre-filtered `(slot, name, segment)`
triples: same pending-binding state machine as `variableIterLoop`, without
the name lookup. -/
def mergeCore : List (Nat × List Nat × List Nat) →
    Option (Nat × List Nat × List Nat) → List (List Nat × List Nat)
  | [], none => []
  | [], some (_, n, acc) => [(n, acc)]
  | (i, n, seg) :: rest, none => mergeCore rest (some (i, n, seg))
  | (i, n, seg) :: rest, some (j, m, acc) =>
    if j = i then mergeCore rest (some (j, m, acc ++ slashByte :: seg))
    else (m, acc) :: mergeCore rest (some (i, n, seg))

/-- Byte strings joined with the separator (the spec's "segments joined
with `/`"). -/
def joinSlash : List (List Nat) → List Nat
  | [] => []
  | [a] => a
  | a :: b :: rest => a ++ slashByte :: joinSlash (b :: rest)

/-- Continuation bytes a run of triples appends to a pending value:
`/` followed by the segment, for each triple. -/
def contJoin : List (Nat × List Nat × List Nat) → List Nat
  | [] => []
  | e :: rest => slashByte :: e.2.2 ++ contJoin rest

/-- Group a triple list into maximal runs of consecutive entries sharing one
slot id (the spec's "groups consecutive assigned-and-named segments by slot
id"). -/
def chunkBySlot : List (Nat × List Nat × List Nat) →
    List (List (Nat × List Nat × List Nat))
  | [] => []
  | x :: xs =>
    (x :: xs.takeWhile (fun y => y.1 == x.1)) ::
      chunkBySlot (xs.dropWhile (fun y => y.1 == x.1))
termination_by l => l.length
decreasing_by
  simp only [List.length_cons]
  exact Nat.lt_succ_of_le (List.dropWhile_suffix _).sublist.length_le

/-- Name of the first triple of a group (groups are never empty). -/
def headName : List (Nat × List Nat × List Nat) → List Nat
  | [] => []
  | e :: _ => e.2.1

/-- The spec's description of the merge (§4.2/§4.3 read as grouping):
one binding per maximal run of consecutive same-slot named entries, whose
name is the run's name and whose value is the run's segments joined with
`/`, in path order. -/
def specBindings (l : List (Nat × List Nat × List Nat)) :
    List (List Nat × List Nat) :=
  (chunkBySlot l).map (fun g => (headName g, joinSlash (g.map (fun e => e.2.2))))

/-- No two adjacent separator bytes. -/
def noDoubleSlash : List Nat → Bool
  | [] => true
  | [_] => true
  | a :: b :: rest => !(is_slash a && is_slash b) && noDoubleSlash (b :: rest)

mutual

/-- A path-like value none of whose byte paths has two adjacent
separators. -/
def PathRep.noDouble : PathRep → Bool
  | .bytes b => noDoubleSlash b
  | .container ps => noDoubleList ps

/-- `PathRep.noDouble` for every element of a list. -/
def noDoubleList : List PathRep → Bool
  | [] => true
  | p :: ps => p.noDouble && noDoubleList ps

end

theorem splitSlash_ne_nil (l : List Nat) : splitSlash l ≠ [] := by
  cases l with
  | nil => simp [splitSlash]
  | cons c rest =>
    simp only [splitSlash]
    cases h : splitSlash rest with
    | nil => simp
    | cons s ss =>
      by_cases hc : is_slash c <;> simp [hc]

theorem splitSlash_eq_splitOn (l : List Nat) : splitSlash l = l.splitOn slashByte := by
  induction l with
  | nil => rfl
  | cons c rest ih =>
    obtain ⟨s, ss, heq⟩ : ∃ s ss, rest.splitOn slashByte = s :: ss := by
      cases h : rest.splitOn slashByte with
      | nil => exact absurd h (List.splitOnP_ne_nil _ rest)
      | cons a b => exact ⟨a, b, rfl⟩
    have heqP : List.splitOnP (fun x => x == slashByte) rest = s :: ss := heq
    have lhs : splitSlash (c :: rest) =
        if is_slash c then [] :: s :: ss else (c :: s) :: ss := by
      simp only [splitSlash, ih, heq]
    have rhs : (c :: rest).splitOn slashByte =
        if (c == slashByte) then [] :: s :: ss else (c :: s) :: ss := by
      show List.splitOnP (fun x => x == slashByte) (c :: rest) = _
      rw [List.splitOnP_cons, heqP]
      by_cases hc : (c == slashByte) = true <;> simp [hc]
    rw [lhs, rhs]
    rfl

theorem byteSegments_eq_specSegments (p : List Nat) : byteSegments p = specSegments p := by
  simp only [byteSegments, specSegments, List.drop_one, ← List.dropLast_eq_take,
    splitSlash_eq_splitOn, List.length_eq_zero]

theorem segmentsList_eq_flatten (ps : List PathRep) :
    segmentsList ps = (ps.map PathRep.segments).flatten := by
  induction ps with
  | nil => rfl
  | cons p ps ih => simp [segmentsList, ih]

/-- C5: `segments()` strips exactly one leading `/` if present and one
trailing `/` if present; an empty remainder gives the empty sequence (so
`"/"` and `""` yield no segments); otherwise the remainder is split on `/`
and the runs are yielded left to right, so `"/path/to/somewhere/"` yields
exactly `["path","to","somewhere"]`. -/
theorem claimC5 :
    (∀ p : List Nat, byteSegments p = specSegments p) ∧
    byteSegments (strB ("/")) = [] ∧
    byteSegments (strB ("")) = [] ∧
    byteSegments (strB ("/path/to/somewhere/")) =
      [strB ("path"), strB ("to"), strB ("somewhere")] :=
  ⟨byteSegments_eq_specSegments, by decide, by decide, by decide⟩

/-- C6: segmenting an ordered container yields the ordered concatenation of
the segment sequences of its elements; the container
`["/a", "b/", "/", "c/d/"]` yields `["a","b","c","d"]`. -/
theorem claimC6 :
    (∀ ps : List PathRep,
      (PathRep.container ps).segments = (ps.map PathRep.segments).flatten) ∧
    (PathRep.container [PathRep.bytes (strB ("/a")), PathRep.bytes (strB ("b/")),
      PathRep.bytes (strB ("/")), PathRep.bytes (strB ("c/d/"))]).segments =
      [strB ("a"), strB ("b"), strB ("c"), strB ("d")] :=
  ⟨fun ps => segmentsList_eq_flatten ps, by decide⟩

/-- C8: `go_to` sets `index` and `var_index` to exactly the snapshot values
and changes nothing else (segment sequence and slot assignments untouched);
`snapshot()` immediately followed by `go_to()` restores the whole state. -/
theorem claimC8 :
    ∀ (s : RouteState) (snap : Nat × Nat),
      (s.go_to snap).index = snap.1 ∧ (s.go_to snap).var_index = snap.2 ∧
      (s.go_to snap).route = s.route ∧ (s.go_to snap).vars = s.vars ∧
      s.go_to s.snapshot = s :=
  fun _ _ => ⟨rfl, rfl, rfl, rfl, rfl⟩

/-- C1 (amended): for `"/users/42/edit"` segmented into
`["users","42","edit"]`, decisions skip, keep, skip on a fresh `RouteState`
and `variables` with name table `["id"]` (the single `keep` allocates slot
0, so the name for the capture sits at index 0) return a mapping whose
only entry binds "id" to "42". -/
theorem claimC1 :
    ((((RouteState.fromSegs (byteSegments (strB ("/users/42/edit")))).skip.keep.skip).variables
        [strB ("id")]) = [(strB ("id"), strB ("42"))]) ∧
    (∀ k, lookupLast
        ((((RouteState.fromSegs (byteSegments (strB ("/users/42/edit")))).skip.keep.skip).variables
          [strB ("id")])) k =
      if k = strB ("id") then some (strB ("42")) else none) := by
  have h : (((RouteState.fromSegs (byteSegments (strB ("/users/42/edit")))).skip.keep.skip).variables
      [strB ("id")]) = [(strB ("id"), strB ("42"))] := by decide
  refine ⟨h, ?_⟩
  intro k
  rw [h]
  by_cases hk : k = strB ("id")
  · simp [lookupLast, hk]
  · simp [lookupLast, hk, Ne.symm hk]

/-- C1 (counterexample): with the claim's name table `["", "id", ""]` the
single `keep` writes slot 0, whose name table entry is the empty string, so
the capture is dropped: `variables` returns the empty mapping, with no entry for "id". -/
theorem claimC1_counterexample :
    ((((RouteState.fromSegs (byteSegments (strB ("/users/42/edit")))).skip.keep.skip).variables
        [strB (""), strB ("id"), strB ("")]) = []) ∧
    lookupLast
        ((((RouteState.fromSegs (byteSegments (strB ("/users/42/edit")))).skip.keep.skip).variables
          [strB (""), strB ("id"), strB ("")])) (strB ("id")) = none :=
  ⟨by decide, by decide⟩

/-- C2 (amended): over segments `["images","2024","07"]` with name table
`["", "path"]` (slot 0 unused), calling `keep()` on `"images"` (which
allocates the unused slot 0 and moves `var_index` to 1) and `fuse()` on
both `"2024"` and `"07"` (each writing the current `var_index`, 1) makes
`variables` return the single binding `("path", "2024/07")`. -/
theorem claimC2 :
    ((RouteState.fromSegs [strB ("images"), strB ("2024"), strB ("07")]).keep.fuse.fuse).variables
      [strB (""), strB ("path")] = [(strB ("path"), strB ("2024/07"))] := by
  decide

/-- C2 (counterexample): with the claim's decisions (consume `"images"`
with `skip`, `keep` on `"2024"`, `fuse` on `"07"`), the `keep` writes slot
0 to `"2024"` and then increments `var_index`, so the following `fuse`
writes slot 1 to `"07"`; with name table `["", "path"]` the result is the
single binding `("path", "07")`, not `("path", "2024/07")`. -/
theorem claimC2_counterexample :
    (((RouteState.fromSegs [strB ("images"), strB ("2024"), strB ("07")]).skip.keep.fuse).variables
        [strB (""), strB ("path")] = [(strB ("path"), strB ("07"))]) ∧
    ¬ (((RouteState.fromSegs [strB ("images"), strB ("2024"), strB ("07")]).skip.keep.fuse).variables
        [strB (""), strB ("path")] = [(strB ("path"), strB ("2024/07"))]) :=
  ⟨by decide, by decide⟩

/-- C10 (amended): `is_empty()` is true iff `get()` returns none, for every
`RouteState` whose `index` has not run past the segment count (`get` does
not advance the position, so repeated calls keep returning the same
result). Past the end (reachable by calling skip/keep/fuse on an exhausted
state, or by `go_to` with an arbitrary snapshot), `get` still returns none
while `is_empty` is false. -/
theorem claimC10 (s : RouteState) (h : s.index ≤ s.route.length) :
    s.is_empty = true ↔ s.get = none := by
  simp only [RouteState.is_empty, RouteState.get, beq_iff_eq, List.getElem?_eq_none_iff]
  omega

theorem claimC10_witness :
    ((RouteState.fromSegs [strB ("a")]).index ≤
      (RouteState.fromSegs [strB ("a")]).route.length) ∧
    ((RouteState.fromSegs [strB ("a")]).is_empty = true ↔
      (RouteState.fromSegs [strB ("a")]).get = none) :=
  ⟨by decide, claimC10 _ (by decide)⟩

/-- C10 (counterexample): calling `skip()` on a fresh `RouteState` over the
empty segment list advances `index` to 1 while the segment count is 0:
`is_empty()` is then false although `get()` returns none (and keeps
returning none), refuting the claimed equivalence for arbitrary states. -/
theorem claimC10_counterexample :
    ((RouteState.fromSegs []).skip.is_empty = false) ∧
    ((RouteState.fromSegs []).skip.get = none) :=
  ⟨by decide, by decide⟩

/-- The slot-id bookkeeping consequences claimed for `keep`/`fuse` at state
`s`: `keep` writes the current `var_index` into the current slot and then
increments `var_index`; `fuse` writes the current `var_index` without
incrementing; a `fuse` right after a `keep` writes an id one greater than
the `keep` wrote; two consecutive `fuse` calls write one shared id; a
`keep` right after a `fuse` writes the same id the `fuse` wrote; two
consecutive `keep` calls write distinct increasing ids. -/
def keepFuseSlotFacts (s : RouteState) : Prop :=
  ((s.keep).vars[s.index]? = some (some s.var_index) ∧
    (s.keep).var_index = s.var_index + 1 ∧ (s.keep).index = s.index + 1) ∧
  ((s.fuse).vars[s.index]? = some (some s.var_index) ∧
    (s.fuse).var_index = s.var_index ∧ (s.fuse).index = s.index + 1) ∧
  ((s.keep.fuse).vars[s.index]? = some (some s.var_index) ∧
    (s.keep.fuse).vars[s.index + 1]? = some (some (s.var_index + 1))) ∧
  ((s.fuse.fuse).vars[s.index]? = some (some s.var_index) ∧
    (s.fuse.fuse).vars[s.index + 1]? = some (some s.var_index)) ∧
  ((s.fuse.keep).vars[s.index]? = some (some s.var_index) ∧
    (s.fuse.keep).vars[s.index + 1]? = some (some s.var_index)) ∧
  ((s.keep.keep).vars[s.index]? = some (some s.var_index) ∧
    (s.keep.keep).vars[s.index + 1]? = some (some (s.var_index + 1)))

/-- C4: `keep()` assigns the current segment the current `var_index` and
increments it, `fuse()` assigns the current `var_index` without
incrementing it; hence fuse-after-keep writes an id exactly one greater
than the keep wrote, a run of consecutive fuses shares one id,
keep-after-fuse writes the very id the fuse just wrote, and consecutive
keeps write fresh increasing ids. Stated for states whose slot array
matches the segment list in length with two segments left to consume. -/
theorem claimC4 (s : RouteState) (hv : s.vars.length = s.route.length)
    (h2 : s.index + 1 < s.route.length) : keepFuseSlotFacts s := by
  have hi : s.index < s.vars.length := by omega
  unfold keepFuseSlotFacts
  simp only [RouteState.keep, RouteState.fuse]
  refine ⟨⟨?_, ?_, ?_⟩, ⟨?_, ?_, ?_⟩, ⟨?_, ?_⟩, ⟨?_, ?_⟩, ⟨?_, ?_⟩, ⟨?_, ?_⟩⟩ <;>
    first
      | trivial
      | rw [List.getElem?_set_self (by omega)]
      | rw [List.getElem?_set_self (by simp only [List.length_set]; omega)]
      | rw [List.getElem?_set_ne (by omega), List.getElem?_set_self (by omega)]

theorem claimC4_witness :
    ((RouteState.fromSegs [strB ("a"), strB ("b")]).vars.length =
        (RouteState.fromSegs [strB ("a"), strB ("b")]).route.length ∧
      (RouteState.fromSegs [strB ("a"), strB ("b")]).index + 1 <
        (RouteState.fromSegs [strB ("a"), strB ("b")]).route.length) ∧
    keepFuseSlotFacts (RouteState.fromSegs [strB ("a"), strB ("b")]) :=
  ⟨⟨by decide, by decide⟩, claimC4 _ (by decide) (by decide)⟩

theorem variableIterLoop_nil_names (l : List (Nat × List Nat)) :
    variableIterLoop [] l none = [] := by
  induction l with
  | nil => rfl
  | cons e rest ih =>
    obtain ⟨i, seg⟩ := e
    simp [variableIterLoop, ih]

/-- C9: during `variables()`, an assigned segment whose slot id is out of
range of the name table, or whose name entry is empty, is silently dropped:
it contributes to no binding and causes no failure; and `variables()` with
an empty name table returns the empty mapping for every state, however many
keep/fuse decisions were issued. -/
theorem claimC9 (names : List (List Nat)) (i : Nat) (seg : List Nat)
    (rest : List (Nat × List Nat)) (cur : Option (Nat × List Nat × List Nat))
    (s : RouteState) (h : names[i]? = none ∨ names[i]? = some []) :
    variableIterLoop names ((i, seg) :: rest) cur = variableIterLoop names rest cur ∧
    s.variables [] = [] := by
  constructor
  · rcases h with h | h <;> simp [variableIterLoop, h]
  · show variableIterLoop [] (capturedPairs s) none = []
    exact variableIterLoop_nil_names _

theorem claimC9_witness :
    (([[]] : List (List Nat))[0]? = none ∨ ([[]] : List (List Nat))[0]? = some []) ∧
    (variableIterLoop [[]] [(0, strB ("x"))] none = variableIterLoop [[]] [] none ∧
      (RouteState.fromSegs []).variables [] = []) :=
  ⟨Or.inr (by decide),
    claimC9 [[]] 0 (strB ("x")) [] none (RouteState.fromSegs []) (Or.inr (by decide))⟩

theorem variableIterLoop_eq_mergeCore (names : List (List Nat))
    (l : List (Nat × List Nat)) :
    ∀ cur, variableIterLoop names l cur = mergeCore (filterNamed names l) cur := by
  induction l with
  | nil =>
    intro cur
    cases cur with
    | none => rfl
    | some c => obtain ⟨j, m, acc⟩ := c; rfl
  | cons e rest ih =>
    intro cur
    obtain ⟨i, seg⟩ := e
    simp only [variableIterLoop, filterNamed]
    cases hn : names[i]? with
    | none => simp [ih]
    | some n =>
      by_cases he : n = []
      · simp [he, ih]
      · cases cur with
        | none => simp [he, ih, mergeCore]
        | some c =>
          obtain ⟨j, m, acc⟩ := c
          by_cases hj : j = i
          · simp [he, hj, ih, mergeCore]
          · simp [he, hj, ih, mergeCore]

theorem mergeCore_some (l : List (Nat × List Nat × List Nat)) :
    ∀ (j : Nat) (m acc : List Nat),
      mergeCore l (some (j, m, acc)) =
        (m, acc ++ contJoin (l.takeWhile (fun e => e.1 == j))) ::
          mergeCore (l.dropWhile (fun e => e.1 == j)) none := by
  induction l with
  | nil => intro j m acc; simp [mergeCore, contJoin]
  | cons e rest ih =>
    intro j m acc
    obtain ⟨i, n, seg⟩ := e
    by_cases hj : j = i
    · subst hj
      simp only [mergeCore, if_pos rfl, List.takeWhile_cons, List.dropWhile_cons,
        beq_self_eq_true, if_true, ih, contJoin]
      simp [List.append_assoc]
    · have hij : ((i, n, seg).1 == j) = false := by
        simp only [beq_eq_false_iff_ne, ne_eq]
        exact fun h => hj (h ▸ rfl)
      simp only [mergeCore, if_neg hj, List.takeWhile_cons, List.dropWhile_cons, hij,
        Bool.false_eq_true, if_false, contJoin, List.append_nil]

theorem joinSlash_cons_map (g : List (Nat × List Nat × List Nat)) :
    ∀ a : List Nat, joinSlash (a :: g.map (fun e => e.2.2)) = a ++ contJoin g := by
  induction g with
  | nil => intro a; simp [joinSlash, contJoin]
  | cons e g ih =>
    intro a
    simp only [List.map_cons, joinSlash, ih, contJoin]
    simp

theorem mergeCore_none_eq_specBindings (l : List (Nat × List Nat × List Nat)) :
    mergeCore l none = specBindings l := by
  induction l using chunkBySlot.induct with
  | case1 =>
    rw [show mergeCore [] none = ([] : List (List Nat × List Nat)) from rfl]
    simp [specBindings, chunkBySlot]
  | case2 x xs ih =>
    obtain ⟨i, n, seg⟩ := x
    rw [show mergeCore ((i, n, seg) :: xs) none = mergeCore xs (some (i, n, seg)) from rfl,
      mergeCore_some]
    simp only [specBindings] at ih ⊢
    rw [chunkBySlot]
    simp only [List.map_cons, headName, joinSlash_cons_map, ih]

/-- C7: `variables(names)` makes one left-to-right pass over the assigned
`(slot id, segment)` pairs restricted to those with a non-empty in-range
name: each maximal run of consecutive entries with one slot id becomes one
binding named after the run whose value is the run's segments joined with
`/` (a slot-id change flushes the pending binding, the final pending
binding is flushed after the pass); non-adjacent groups with the same slot
id are emitted as separate bindings with the same name, and in the
name-keyed output mapping the later one overwrites the earlier (shown on a
state whose slot array holds `0, 1, 0`, reachable with `keep, keep,
go_to (2,0), keep`). -/
theorem claimC7 :
    (∀ (s : RouteState) (names : List (List Nat)),
      s.variables names = specBindings (filterNamed names (capturedPairs s))) ∧
    ((((RouteState.fromSegs [[97], [98], [99]]).keep.keep).go_to (2, 0)).keep).variables
        [[110], [109]] = [([110], [97]), ([109], [98]), ([110], [99])] ∧
    lookupLast (((((RouteState.fromSegs [[97], [98], [99]]).keep.keep).go_to (2, 0)).keep).variables
        [[110], [109]]) [110] = some [99] := by
  refine ⟨?_, by decide, by decide⟩
  intro s names
  show variableIterLoop names (capturedPairs s) none = _
  rw [variableIterLoop_eq_mergeCore, mergeCore_none_eq_specBindings]

theorem splitSlash_cons_eq (c : Nat) (rest : List Nat) (s : List Nat)
    (ss : List (List Nat)) (h : splitSlash rest = s :: ss) :
    splitSlash (c :: rest) = if is_slash c then [] :: s :: ss else (c :: s) :: ss := by
  conv_lhs => rw [splitSlash]
  rw [h]

theorem splitSlash_cons_not_slash (c : Nat) (rest : List Nat) (hc : is_slash c = false) :
    ∃ s ss, splitSlash (c :: rest) = (c :: s) :: ss := by
  cases h : splitSlash rest with
  | nil => exact absurd h (splitSlash_ne_nil rest)
  | cons s ss =>
    refine ⟨s, ss, ?_⟩
    simp [splitSlash, h, hc]

theorem noDouble_tail (c : Nat) (l : List Nat) (h : noDoubleSlash (c :: l) = true) :
    noDoubleSlash l = true := by
  cases l with
  | nil => rfl
  | cons d r =>
    simp only [noDoubleSlash, Bool.and_eq_true] at h
    exact h.2

theorem noDouble_second (c d : Nat) (l : List Nat) (h : noDoubleSlash (c :: d :: l) = true)
    (hc : is_slash c = true) : is_slash d = false := by
  simp only [noDoubleSlash, Bool.and_eq_true, Bool.not_eq_true'] at h
  rcases h with ⟨h1, _⟩
  cases hd : is_slash d
  · rfl
  · rw [hc, hd] at h1; simp at h1

theorem splitSlash_tail_ne_nil (l : List Nat) :
    noDoubleSlash l = true → l.getLast? ≠ some slashByte →
    ∀ t ∈ (splitSlash l).tail, t ≠ [] := by
  induction l with
  | nil => intro _ _ t ht; simp [splitSlash] at ht
  | cons c rest ih =>
    intro hnd hlast t ht
    cases rest with
    | nil =>
      have hc : c ≠ slashByte := by
        intro h; exact hlast (by simp [h])
      have hc' : is_slash c = false := by simp [is_slash, hc]
      rw [show splitSlash [c] = [[c]] from by simp [splitSlash, hc']] at ht
      simp at ht
    | cons d rest' =>
      have hlast' : (d :: rest').getLast? ≠ some slashByte := by
        rwa [List.getLast?_cons_cons] at hlast
      have hnd' : noDoubleSlash (d :: rest') = true := noDouble_tail c _ hnd
      by_cases hc : is_slash c
      · have hd : is_slash d = false := noDouble_second c d rest' hnd hc
        obtain ⟨s, ss, hss⟩ := splitSlash_cons_not_slash d rest' hd
        rw [splitSlash_cons_eq c _ _ _ hss, if_pos hc] at ht
        simp only [List.tail_cons] at ht
        rcases List.mem_cons.mp ht with h | h
        · subst h; simp
        · exact ih hnd' hlast' t (by rw [hss]; simpa using h)
      · have hc' : is_slash c = false := by simpa using hc
        obtain ⟨s, ss, hss0⟩ : ∃ s ss, splitSlash (d :: rest') = s :: ss := by
          cases h : splitSlash (d :: rest') with
          | nil => exact absurd h (splitSlash_ne_nil _)
          | cons a b => exact ⟨a, b, rfl⟩
        rw [splitSlash_cons_eq c _ _ _ hss0, if_neg hc] at ht
        simp only [List.tail_cons] at ht
        exact ih hnd' hlast' t (by rw [hss0]; simpa using ht)

theorem splitSlash_all_ne_nil (l : List Nat) (hne : l ≠ [])
    (hhead : l.head? ≠ some slashByte) (hnd : noDoubleSlash l = true)
    (hlast : l.getLast? ≠ some slashByte) :
    ∀ t ∈ splitSlash l, t ≠ [] := by
  cases l with
  | nil => exact absurd rfl hne
  | cons c rest =>
    have hc : is_slash c = false := by
      simp only [is_slash, beq_eq_false_iff_ne, ne_eq]
      intro h
      exact hhead (by rw [h]; rfl)
    obtain ⟨s, ss, hss⟩ := splitSlash_cons_not_slash c rest hc
    intro t ht
    rw [hss] at ht
    rcases List.mem_cons.mp ht with h | h
    · subst h; simp
    · exact splitSlash_tail_ne_nil (c :: rest) hnd hlast t (by rw [hss]; simpa using h)

theorem head?_dropLast (a : Nat) (l : List Nat) (h : (a :: l).dropLast ≠ []) :
    (a :: l).dropLast.head? = some a := by
  cases l with
  | nil => simp at h
  | cons b r => simp [List.dropLast]

theorem getLast?_cons_ne (c : Nat) (X : List Nat) (h : X ≠ []) :
    (c :: X).getLast? = X.getLast? := by
  cases X with
  | nil => exact absurd rfl h
  | cons b r => exact List.getLast?_cons_cons

theorem noDouble_dropLast (l : List Nat) (h : noDoubleSlash l = true) :
    noDoubleSlash l.dropLast = true := by
  induction l with
  | nil => rfl
  | cons c rest ih =>
    cases rest with
    | nil => rfl
    | cons d rest' =>
      have h2 : noDoubleSlash (d :: rest') = true := noDouble_tail c _ h
      have ih' := ih h2
      rw [show (c :: d :: rest').dropLast = c :: (d :: rest').dropLast from rfl]
      cases hr : (d :: rest').dropLast with
      | nil => rfl
      | cons e r2 =>
        have he : e = d := by
          have hh := head?_dropLast d rest' (by rw [hr]; simp)
          rw [hr] at hh; simpa using hh
        subst he
        have h1 : (!(is_slash c && is_slash e)) = true := by
          simp only [noDoubleSlash, Bool.and_eq_true] at h
          exact h.1
        rw [hr] at ih'
        simp only [noDoubleSlash, Bool.and_eq_true]
        exact ⟨h1, ih'⟩

theorem getLast?_dropLast_ne (l : List Nat) (hnd : noDoubleSlash l = true)
    (hl : l.getLast? = some slashByte) :
    l.dropLast.getLast? ≠ some slashByte := by
  induction l with
  | nil => simp at hl
  | cons c rest ih =>
    cases rest with
    | nil => simp
    | cons d rest' =>
      cases rest' with
      | nil =>
        have hd : d = slashByte := by simpa using hl
        have hc : is_slash c = false := by
          simp only [noDoubleSlash, Bool.and_eq_true, Bool.not_eq_true'] at hnd
          rcases hnd with ⟨h1, _⟩
          cases hcs : is_slash c
          · rfl
          · rw [hcs, hd] at h1
            simp [is_slash] at h1
        have hc' : c ≠ slashByte := by simpa [is_slash] using hc
        simp [List.dropLast, hc']
      | cons e rest'' =>
        have hl' : (d :: e :: rest'').getLast? = some slashByte := by
          rwa [List.getLast?_cons_cons] at hl
        have hnd' := noDouble_tail c _ hnd
        have ih' := ih hnd' hl'
        rw [show (c :: d :: e :: rest'').dropLast = c :: (d :: e :: rest'').dropLast from rfl]
        have hX : (d :: e :: rest'').dropLast ≠ [] := by simp [List.dropLast]
        rw [getLast?_cons_ne c _ hX]
        exact ih'

/-- First normalization step of `byteSegments`: one leading separator
removed if present. -/
def stripHead (p : List Nat) : List Nat :=
  if p.head? = some slashByte then p.drop 1 else p

/-- Second normalization step of `byteSegments`: one trailing separator
removed if present. -/
def stripTail (s : List Nat) : List Nat :=
  if s.getLast? = some slashByte then s.take (s.length - 1) else s

theorem byteSegments_eq_strip (p : List Nat) :
    byteSegments p = if (stripTail (stripHead p)).length = 0 then []
      else splitSlash (stripTail (stripHead p)) := rfl

theorem stripTail_eq (s : List Nat) :
    stripTail s = if s.getLast? = some slashByte then s.dropLast else s := by
  rw [stripTail, List.dropLast_eq_take]

theorem stripHead_noDouble (p : List Nat) (h : noDoubleSlash p = true) :
    noDoubleSlash (stripHead p) = true := by
  rw [stripHead]
  split
  · rw [List.drop_one]
    cases p with
    | nil => rfl
    | cons c t => exact noDouble_tail c t h
  · exact h

theorem stripHead_head (p : List Nat) (h : noDoubleSlash p = true) :
    (stripHead p).head? ≠ some slashByte := by
  rw [stripHead]
  split
  case isTrue hp =>
    rw [List.drop_one]
    cases p with
    | nil => simp
    | cons c t =>
      have hc : c = slashByte := by simpa using hp
      cases t with
      | nil => simp
      | cons d r =>
        have hd : is_slash d = false :=
          noDouble_second c d r h (by simp [is_slash, hc])
        simp only [List.tail_cons, List.head?_cons, ne_eq, Option.some.injEq]
        intro hde
        rw [hde] at hd
        simp [is_slash] at hd
  case isFalse hp => exact hp

theorem stripTail_noDouble (s : List Nat) (h : noDoubleSlash s = true) :
    noDoubleSlash (stripTail s) = true := by
  rw [stripTail_eq]
  split
  · exact noDouble_dropLast s h
  · exact h

theorem stripTail_getLast (s : List Nat) (h : noDoubleSlash s = true) :
    (stripTail s).getLast? ≠ some slashByte := by
  rw [stripTail_eq]
  split
  case isTrue hl => exact getLast?_dropLast_ne s h hl
  case isFalse hl => exact hl

theorem stripTail_head (s : List Nat) (hne : stripTail s ≠ [])
    (h : s.head? ≠ some slashByte) : (stripTail s).head? ≠ some slashByte := by
  by_cases hl : s.getLast? = some slashByte
  · rw [stripTail_eq, if_pos hl] at hne ⊢
    cases s with
    | nil => simp at hne
    | cons a t =>
      rw [head?_dropLast a t hne]
      intro hh
      exact h (by rw [List.head?_cons]; exact hh)
  · rw [stripTail_eq, if_neg hl]
    exact h

theorem byteSegments_ne_nil_mem (p : List Nat) (hnd : noDoubleSlash p = true) :
    ∀ t ∈ byteSegments p, t ≠ [] := by
  rw [byteSegments_eq_strip]
  by_cases h0 : (stripTail (stripHead p)).length = 0
  · rw [if_pos h0]
    intro t ht
    simp at ht
  · rw [if_neg h0]
    have hne : stripTail (stripHead p) ≠ [] := by
      intro h
      exact h0 (by rw [h]; rfl)
    exact splitSlash_all_ne_nil _ hne
      (stripTail_head _ hne (stripHead_head p hnd))
      (stripTail_noDouble _ (stripHead_noDouble p hnd))
      (stripTail_getLast _ (stripHead_noDouble p hnd))

mutual

theorem pathSegments_ne_nil_mem : ∀ (p : PathRep), p.noDouble = true →
    ∀ t ∈ p.segments, t ≠ []
  | .bytes b, h => byteSegments_ne_nil_mem b h
  | .container ps, h => segmentsList_ne_nil_mem ps h

theorem segmentsList_ne_nil_mem : ∀ (ps : List PathRep), noDoubleList ps = true →
    ∀ t ∈ segmentsList ps, t ≠ []
  | [], _ => by
    intro t ht
    simp [segmentsList] at ht
  | p :: ps, h => by
    intro t ht
    have h1 : p.noDouble = true := by
      simp only [noDoubleList, Bool.and_eq_true] at h
      exact h.1
    have h2 : noDoubleList ps = true := by
      simp only [noDoubleList, Bool.and_eq_true] at h
      exact h.2
    rcases List.mem_append.mp (by simpa [segmentsList] using ht) with hm | hm
    · exact pathSegments_ne_nil_mem p h1 t hm
    · exact segmentsList_ne_nil_mem ps h2 t hm

end

/-- C3 (amended): for every supported path value (string, byte slice, or
nested container) in which no two separator bytes are adjacent, every
segment yielded by `segments()` is non-empty. (Without that restriction
the claim fails: consecutive internal separators produce empty segments,
see the counterexample.) -/
theorem claimC3 (p : PathRep) (h : p.noDouble = true) :
    ∀ t ∈ p.segments, t ≠ [] :=
  pathSegments_ne_nil_mem p h

theorem claimC3_witness :
    ((PathRep.container [PathRep.bytes (strB ("/a/b")), PathRep.bytes (strB ("c"))]).noDouble = true ∧
      strB ("a") ∈ (PathRep.container [PathRep.bytes (strB ("/a/b")),
        PathRep.bytes (strB ("c"))]).segments) ∧
    strB ("a") ≠ [] :=
  ⟨⟨by decide, by decide⟩,
    claimC3 (PathRep.container [PathRep.bytes (strB ("/a/b")), PathRep.bytes (strB ("c"))])
      (by decide) (strB ("a")) (by decide)⟩

/-- C3 (counterexample): the byte path `"a//b"` is a supported path value,
and `segments()` on it yields the empty byte slice as its second segment
(the code filters only the single leading and trailing separator before
splitting), refuting "every segment yielded by segments() is a non-empty
byte slice". -/
theorem claimC3_counterexample :
    (PathRep.bytes (strB ("a//b"))).segments = [strB ("a"), [], strB ("b")] ∧
    [] ∈ (PathRep.bytes (strB ("a//b"))).segments :=
  ⟨by decide, by decide⟩
